import Mathlib

/-!
Verification development for a content-path library.

The program under study has two layers.  The `Path` layer parses, validates
and decomposes a path string ( `/dms3fs/<cid>/a/b` and similar ) into a
canonical prefixed form and an ordered segment sequence.  The `Resolver`
layer walks those segments through a graph of content-addressed nodes, one
named hop at a time, fetching each node on demand from a node store.

The content-identifier codec ( `cid.Decode` / `Cid.String` ), the node-fetch
service and the internal structure of graph nodes are external collaborators
of the program; they are modelled abstractly by the structures `CidModel`
and `World` below, whose fields mirror exactly the interface the program
consumes.  Everything the program itself implements is translated
definition-by-definition from the source.
-/

namespace GoPathVerification

/-- The external content-identifier collaborator: an opaque identifier type,
a string decoder ( `cid.Decode`, with `none` standing for a decode error )
and the canonical string form ( `Cid.String` ). -/
structure CidModel where
  Cid : Type
  decode : String → Option Cid
  cidToString : Cid → String

/-- Errors of the path-grammar layer.  `errBadPath` is `ErrBadPath`
( the grammar-rejection error ), `errNoComponents` is `ErrNoComponents`,
and `cidError` stands for an error propagated out of the external
content-identifier decoder. -/
inductive PathError where
  | errBadPath
  | errNoComponents
  | cidError
deriving DecidableEq

/-- Embeds `type Path string` : a content path, a plain string value. -/
abbrev Path := String

/-- Splitting a character list at every occurrence of a delimiter, the
behaviour of `strings.Split` : total, and the result is never empty. -/
def splitOnChar (c : Char) : List Char → List (List Char)
  | [] => [[]]
  | x :: xs =>
    if x = c then [] :: splitOnChar c xs
    else (x :: (splitOnChar c xs).headD []) :: (splitOnChar c xs).tail

/-- Joining character lists with a delimiter character, the behaviour of
`strings.Join`. -/
def joinWithChar (c : Char) : List (List Char) → List Char
  | [] => []
  | [m] => m
  | m :: m' :: ms => m ++ c :: joinWithChar c (m' :: ms)

/-- Embeds `strings.Split(s, "/")` at the string level. -/
def splitSlash (s : String) : List String :=
  (splitOnChar '/' s.toList).map String.mk

/-- Embeds `strings.Join(ls, "/")` at the string level. -/
def joinSlash (ls : List String) : String :=
  String.mk (joinWithChar '/' (ls.map String.toList))

/-- The segment-stack processing of the standard library's `path.Clean` :
empty and `.` segments are dropped; `..` pops the most recent kept segment,
except that with a rooted path a `..` at the top is dropped and with an
unrooted path leading `..` segments accumulate.  The accumulator holds the
kept segments most-recent-first and is reversed at the end. -/
def cleanSegsAux (rooted : Bool) : List String → List String → List String
  | acc, [] => acc.reverse
  | acc, s :: rest =>
    if s = "" ∨ s = "." then cleanSegsAux rooted acc rest
    else if s = ".." then
      match acc with
      | [] => if rooted then cleanSegsAux rooted [] rest
              else cleanSegsAux rooted [".."] rest
      | a :: as =>
        if a = ".." then cleanSegsAux rooted (".." :: a :: as) rest
        else cleanSegsAux rooted as rest
    else cleanSegsAux rooted (s :: acc) rest

/-- The standard library's `path.Clean` : `""` becomes `"."`, a rooted path
keeps its leading slash, and an empty cleaned unrooted path becomes `"."`. -/
def clean (s : String) : String :=
  if s = "" then "."
  else if s.toList.head? = some '/' then
    "/" ++ joinSlash (cleanSegsAux true [] (splitSlash s))
  else
    match cleanSegsAux false [] (splitSlash s) with
    | [] => "."
    | q :: qs => joinSlash (q :: qs)

/-- Embeds `segments[1:]` when the leading segment is empty, i.e. the
ignore-leading-slash step of `Path.Segments`.  The source indexes
`segments[0]` unguarded; the empty-list case is unreachable because a split
is never empty ( the safety fact proved for claim C10 ). -/
def dropLeadingEmpty : List String → List String
  | [] => []
  | s :: rest => if s = "" then rest else s :: rest

/-- Embeds `Path.Segments` : clean the path, split on `/`, drop a leading empty
element produced by the leading slash. -/
def Segments (p : Path) : List String :=
  dropLeadingEmpty (splitSlash (clean p))

/-- Embeds `Path.IsJustAKey` : true iff the path has exactly two segments and the
first is one of the identifier-addressed namespace tags. -/
def IsJustAKey (p : Path) : Bool :=
  match Segments p with
  | [a, _] => a == "dms3fs" || a == "dms3ld"
  | _ => false

/-- Embeds `FromCid` : the canonical self-namespace path of a content identifier. -/
def FromCid (M : CidModel) (c : M.Cid) : Path :=
  "/dms3fs/" ++ M.cidToString c

/-- Embeds `ParseCidToPath` : an empty string reports `ErrNoComponents`, a decoder
failure propagates, and a decoded identifier becomes a `FromCid` path. -/
def ParseCidToPath (M : CidModel) (txt : String) : Except PathError Path :=
  if txt = "" then .error .errNoComponents
  else
    match M.decode txt with
    | none => .error .cidError
    | some c => .ok (FromCid M c)

/-- The fall-through of `ParsePath` after the single-component attempt : a
string not beginning with `/` must start with a decodable identifier and is
prefixed with the self namespace; otherwise the string must have a
recognised namespace tag in second position, with the third component
decode-checked for the self tag and at least three split components
required. -/
def parsePathGeneral (M : CidModel) (txt : String) : Except PathError Path :=
  match splitSlash txt with
  | [] => .error .errBadPath
  | p0 :: tl =>
    if p0 = "" then
      match tl with
      | p1 :: p2 :: _ =>
        if p1 = "dms3fs" then
          match ParseCidToPath M p2 with
          | .error e => .error e
          | .ok _ => .ok txt
        else if p1 = "dms3ns" ∨ p1 = "dms3ld" then .ok txt
        else .error .errBadPath
      | _ => .error .errBadPath
    else
      match M.decode p0 with
      | none => .error .errBadPath
      | some _ => .ok ("/dms3fs/" ++ txt)

/-- Embeds `ParsePath` : a single-component string is tried as a bare content
identifier first, falling through to the general grammar on failure. -/
def ParsePath (M : CidModel) (txt : String) : Except PathError Path :=
  if (splitSlash txt).length = 1 then
    match ParseCidToPath M txt with
    | .ok kp => .ok kp
    | .error _ => parsePathGeneral M txt
  else parsePathGeneral M txt

/-- Embeds `Path.IsValid` : the error, if any, of re-parsing the path string. -/
def IsValid (M : CidModel) (p : Path) : Option PathError :=
  match ParsePath M p with
  | .ok _ => none
  | .error e => some e

/-- Embeds `Path.PopLastSegment` : a just-a-key path is returned unchanged with an
empty tail; otherwise the joined prefix of the segments is re-parsed and
returned with the final segment.  The source indexes `segs[len(segs)-1]`
unguarded; `getLast?.getD` renders that total. -/
def PopLastSegment (M : CidModel) (p : Path) : Except PathError (Path × String) :=
  if IsJustAKey p then .ok (p, "")
  else
    let segs := Segments p
    match ParsePath M ("/" ++ joinSlash segs.dropLast) with
    | .error e => .error e
    | .ok newPath => .ok (newPath, (segs.getLast?).getD "")

/-- Embeds `SplitAbsPath` : drop a leading identifier-addressed namespace tag, fail
with `ErrNoComponents` if nothing remains, decode the first remaining
segment as the root content identifier and return it with the remaining
link names.  The source indexes `parts[0]` unguarded before the emptiness
check; the empty-list case of the first match is unreachable ( claim C10 ). -/
def SplitAbsPath (M : CidModel) (fpath : Path) : Except PathError (M.Cid × List String) :=
  let parts0 := Segments fpath
  let parts :=
    match parts0 with
    | [] => []
    | p0 :: rest => if p0 = "dms3fs" ∨ p0 = "dms3ld" then rest else p0 :: rest
  match parts with
  | [] => .error .errNoComponents
  | p0 :: rest =>
    match M.decode p0 with
    | none => .error .cidError
    | some c => .ok (c, rest)

/-- A single-hop resolution error: the distinguished `dag.ErrLinkNotFound`
value, or any other error of the collaborators' error type. -/
inductive HopErr (E : Type) where
  | linkNotFound
  | other (e : E)
deriving DecidableEq

/-- A value produced by a node's own in-node resolution : either a link or
a non-link value, mirroring the `*dms3ld.Link` type switch. -/
inductive NVal (L V : Type) where
  | link (l : L)
  | other (v : V)
deriving DecidableEq

/-- The external node-graph collaborators.  `resolveLink` is the node's
one-hop `ResolveLink` ( a possibly-nil link, the unconsumed names, a
possibly-nil error — the raw Go multiple return ), `nodeResolve` is the
node's in-node `Resolve`, `getNode` is `Link.GetNode` given a fetch
function, and `nodeCid` is `Node.Cid`. -/
structure World extends CidModel where
  Node : Type
  Link : Type
  Value : Type
  Err : Type
  nodeCid : Node → Cid
  resolveLink : Node → List String → Option Link × List String × Option (HopErr Err)
  nodeResolve : Node → List String → Except Err (NVal Link Value × List String)
  getNode : (Cid → Except Err Node) → Link → Except Err Node

/-- The `Resolver` state: the node-fetch service `DAG.Get` and the pluggable
single-hop resolution function `ResolveOnce` ( which, as in the source,
receives the fetch service as an argument ). -/
structure Resolver (W : World) where
  dagGet : W.Cid → Except W.Err W.Node
  resolveOnce : (W.Cid → Except W.Err W.Node) → W.Node → List String →
    Option W.Link × List String × Option (HopErr W.Err)

/-- Embeds `NewBasicResolver` : the default resolver, whose single-hop function is
`ResolveSingle`, i.e. `nd.ResolveLink(names)` ignoring the fetch service. -/
def NewBasicResolver (W : World) (ds : W.Cid → Except W.Err W.Node) : Resolver W :=
  { dagGet := ds, resolveOnce := fun _ nd names => W.resolveLink nd names }

/-- The resolver's error taxonomy.  `noLink` is `ErrNoLink` with the missing
name and the content id of the node it was sought under; `linkNotFoundRaw`
is the raw `dag.ErrLinkNotFound` value propagated unwrapped; `exterr` wraps
any collaborator error; `resolveFully` and `inconsistent` are the two
errors of `ResolveToLastNode`; `pathErr` wraps a path-layer error.
`nilLink` marks the nil-pointer dereference `ResolveLinks` would commit if
the single-hop function returned neither a link nor an error, and `diverge`
marks a walk whose single-hop function never consumes a name ( the Go loop
would not terminate ); neither is reachable for a contract-respecting
single-hop function. -/
inductive ResolveErr (E C : Type) where
  | pathErr (pe : PathError)
  | noLink (name : String) (c : C)
  | linkNotFoundRaw
  | exterr (e : E)
  | nilLink
  | diverge
  | resolveFully
  | inconsistent

/-- The raw error of a hop, as propagated unwrapped by the source. -/
def hopErrOut {E C : Type} : HopErr E → ResolveErr E C
  | .linkNotFound => .linkNotFoundRaw
  | .other e => .exterr e

/-- The loop body of `ResolveLinks` : while names remain, one hop is
resolved; `dag.ErrLinkNotFound` becomes `ErrNoLink(names[0], nd.Cid())`
with the partial chain, any other error is propagated with the partial
chain, and otherwise the link's target is fetched, appended and made the
cursor.  The fuel equals the initial name count; a hop consuming at least
one name, as the single-hop contract requires, never exhausts it. -/
def resolveLinksGo {W : World} (r : Resolver W) (fuel : Nat) (result : List W.Node)
    (nd : W.Node) (names : List String) : List W.Node × Option (ResolveErr W.Err W.Cid) :=
  match names with
  | [] => (result, none)
  | n :: rest0 =>
    match fuel with
    | 0 => (result, some .diverge)
    | Nat.succ fuel' =>
      let res := r.resolveOnce r.dagGet nd (n :: rest0)
      match res.2.2 with
      | some HopErr.linkNotFound => (result, some (.noLink n (W.nodeCid nd)))
      | some (HopErr.other e) => (result, some (.exterr e))
      | none =>
        match res.1 with
        | none => (result, some .nilLink)
        | some l =>
          match W.getNode r.dagGet l with
          | .error e => (result, some (.exterr e))
          | .ok next => resolveLinksGo r fuel' (result ++ [next]) next res.2.1

/-- Embeds `ResolveLinks` : walk the names from `ndd`, starting the result chain
with `ndd` itself. -/
def Resolver.ResolveLinks {W : World} (r : Resolver W) (ndd : W.Node)
    (names : List String) : List W.Node × Option (ResolveErr W.Err W.Cid) :=
  resolveLinksGo r names.length [ndd] ndd names

/-- Embeds `ResolvePathComponents` : split the path into root identifier and link
names, fetch the root node, delegate to `ResolveLinks`.  A nil Go slice is
rendered as the empty list. -/
def Resolver.ResolvePathComponents {W : World} (r : Resolver W) (fpath : Path) :
    List W.Node × Option (ResolveErr W.Err W.Cid) :=
  match SplitAbsPath W.toCidModel fpath with
  | .error e => ([], some (.pathErr e))
  | .ok (h, parts) =>
    match r.dagGet h with
    | .error e => ([], some (.exterr e))
    | .ok nd => r.ResolveLinks nd parts

/-- Embeds `ResolvePath` : validate the path grammar first, compute the component
chain, and return its last element; on `err != nil || nodes == nil` the
source returns `(nil, err)`, so an empty errorless chain yields
`(none, none)`. -/
def Resolver.ResolvePath {W : World} (r : Resolver W) (fpath : Path) :
    Option W.Node × Option (ResolveErr W.Err W.Cid) :=
  match IsValid W.toCidModel fpath with
  | some e => (none, some (.pathErr e))
  | none =>
    match r.ResolvePathComponents fpath with
    | (_, some e) => (none, some e)
    | (nodes, none) => (nodes.getLast?, none)

/-- The hop loop of `ResolveToLastNode` : as the source checks `lnk == nil`
before checking the error, a hop returning no link breaks out of the loop
( whatever error accompanied it ), while an error returned together with a
link is propagated raw. -/
def resolveToLastLoop {W : World} (r : Resolver W) (fuel : Nat) (nd : W.Node)
    (p : List String) : Except (ResolveErr W.Err W.Cid) (W.Node × List String) :=
  match p with
  | [] => .ok (nd, [])
  | n :: rest0 =>
    match fuel with
    | 0 => .error .diverge
    | Nat.succ fuel' =>
      let res := r.resolveOnce r.dagGet nd (n :: rest0)
      match res.1 with
      | none => .ok (nd, n :: rest0)
      | some l =>
        match res.2.2 with
        | some he => .error (hopErrOut he)
        | none =>
          match W.getNode r.dagGet l with
          | .error e => .error (.exterr e)
          | .ok next => resolveToLastLoop r fuel' next res.2.1

/-- The fall-through of `ResolveToLastNode` once the hop loop stops with
names remaining: the cursor node resolves them as in-node data.  Residual
unconsumed names fail with the resolve-fully error, a link value fails as
an internal inconsistency, and a non-link value returns the cursor's
content id together with the remaining names. -/
def lastNodeFallThru (W : World) (nd : W.Node) (p : List String) :
    Except (ResolveErr W.Err W.Cid) (W.Cid × List String) :=
  match W.nodeResolve nd p with
  | .error e => .error (.exterr e)
  | .ok (val, rest) =>
    if rest.length > 0 then .error .resolveFully
    else
      match val with
      | NVal.link _ => .error .inconsistent
      | NVal.other _ => .ok (W.nodeCid nd, p)

/-- Embeds `ResolveToLastNode` : split the path; with no link names, return the
root identifier without fetching; otherwise fetch the root and run the hop
loop, then either finish ( no names left ) or fall through to in-node
resolution. -/
def Resolver.ResolveToLastNode {W : World} (r : Resolver W) (fpath : Path) :
    Except (ResolveErr W.Err W.Cid) (W.Cid × List String) :=
  match SplitAbsPath W.toCidModel fpath with
  | .error e => .error (.pathErr e)
  | .ok (c, p) =>
    if p.length = 0 then .ok (c, [])
    else
      match r.dagGet c with
      | .error e => .error (.exterr e)
      | .ok nd0 =>
        match resolveToLastLoop r p.length nd0 p with
        | .error e => .error e
        | .ok (nd, p') =>
          if p'.length = 0 then .ok (W.nodeCid nd, [])
          else lastNodeFallThru W nd p'

/-- A successfully walked stretch of hops under a resolver `r` :
`HopChain r nd names ms fin rem` says that starting from cursor `nd` with
the name list `names`, the single-hop function resolves a link consuming
exactly the head name at each step, each link's target fetch succeeds, the
visited nodes in order are `ms` ( starting with `nd`, ending with `fin` ),
and `rem` is the suffix of names not yet consumed when the stretch ends. -/
inductive HopChain {W : World} (r : Resolver W) :
    W.Node → List String → List W.Node → W.Node → List String → Prop where
  | refl (nd : W.Node) (names : List String) : HopChain r nd names [nd] nd names
  | step {nd next fin : W.Node} {l : W.Link} {n : String}
      {rest rem : List String} {ms : List W.Node} :
      r.resolveOnce r.dagGet nd (n :: rest) = (some l, rest, none) →
      W.getNode r.dagGet l = .ok next →
      HopChain r next rest ms fin rem →
      HopChain r nd (n :: rest) (nd :: ms) fin rem

/-- A minimal concrete content-identifier model whose decoder rejects every
string; used to evaluate grammar behaviour that is decoder-independent. -/
@[reducible] def Mc : CidModel :=
  { Cid := Unit, decode := fun _ => none, cidToString := fun _ => "" }

/-- A concrete content-identifier model recognising the single canonical
identifier string `QmX`, with the identity string form. -/
@[reducible] def Mq : CidModel :=
  { Cid := String
    decode := fun s => if s = "QmX" then some "QmX" else none
    cidToString := fun c => c }

/-- A concrete three-node world : node 0 links to node 1 under `child`,
node 1 links to node 2 under `grandchild`; the identifier `QmR` decodes to
the content id of node 0, links point at their target node directly, and
in-node resolution always fails. -/
@[reducible] def W1 : World :=
  { Cid := Nat
    decode := fun s => if s = "QmR" then some 0 else none
    cidToString := fun c => if c = 0 then "QmR" else ""
    Node := Nat
    Link := Nat
    Value := Unit
    Err := Unit
    nodeCid := fun n => n
    resolveLink := fun nd names =>
      match nd, names with
      | 0, "child" :: rest => (some 1, rest, none)
      | 1, "grandchild" :: rest => (some 2, rest, none)
      | _, _ => (none, [], some HopErr.linkNotFound)
    nodeResolve := fun _ _ => .error ()
    getNode := fun _ l => .ok l }

/-- The fetch service of `W1` : only the root content id 0 is fetchable. -/
@[reducible] def ds1 : W1.Cid → Except W1.Err W1.Node :=
  fun c => if c = 0 then .ok 0 else .error ()

/-- The default resolver over `W1`. -/
def r1 : Resolver W1 := NewBasicResolver W1 ds1

/-- A concrete world whose single node 0 has no links at all but resolves
any in-node remainder fully to a non-link value. -/
@[reducible] def W3 : World :=
  { Cid := Nat
    decode := fun s => if s = "QmR" then some 0 else none
    cidToString := fun _ => "QmR"
    Node := Nat
    Link := Nat
    Value := Unit
    Err := Unit
    nodeCid := fun n => n
    resolveLink := fun _ _ => (none, [], some HopErr.linkNotFound)
    nodeResolve := fun _ _ => .ok (NVal.other (), [])
    getNode := fun _ l => .ok l }

/-- The default resolver over `W3`. -/
def r3 : Resolver W3 :=
  NewBasicResolver W3 (fun c => if c = 0 then .ok 0 else .error ())

/-- A concrete world whose single-hop resolution returns no link together
with an error value 7 distinct from the link-not-found signal, while
in-node resolution consumes everything to a non-link value. -/
@[reducible] def W4 : World :=
  { Cid := Nat
    decode := fun s => if s = "QmR" then some 0 else none
    cidToString := fun _ => "QmR"
    Node := Nat
    Link := Nat
    Value := Unit
    Err := Nat
    nodeCid := fun n => n
    resolveLink := fun _ _ => (none, [], some (HopErr.other 7))
    nodeResolve := fun _ _ => .ok (NVal.other (), [])
    getNode := fun _ l => .ok l }

/-- The default resolver over `W4`. -/
def r4 : Resolver W4 :=
  NewBasicResolver W4 (fun c => if c = 0 then .ok 0 else .error 9)

theorem splitOnChar_ne_nil (c : Char) (l : List Char) : splitOnChar c l ≠ [] := by
  cases l with
  | nil => simp [splitOnChar]
  | cons x xs =>
    simp only [splitOnChar]
    split <;> simp

theorem splitOnChar_cons_self (c : Char) (l : List Char) :
    splitOnChar c (c :: l) = [] :: splitOnChar c l := by
  simp [splitOnChar]

theorem not_mem_of_mem_splitOnChar (c : Char) :
    ∀ l m, m ∈ splitOnChar c l → c ∉ m := by
  intro l
  induction l with
  | nil =>
    intro m hm
    simp [splitOnChar] at hm
    simp [hm]
  | cons x xs ih =>
    intro m hm
    simp only [splitOnChar] at hm
    by_cases hx : x = c
    · rw [if_pos hx] at hm
      rcases List.mem_cons.mp hm with h | h
      · simp [h]
      · exact ih m h
    · rw [if_neg hx] at hm
      rcases hr : splitOnChar c xs with _ | ⟨s, ss⟩
      · exact absurd hr (splitOnChar_ne_nil c xs)
      · rw [hr] at hm
        simp only [List.headD_cons, List.tail_cons] at hm
        rcases List.mem_cons.mp hm with h | h
        · subst h
          intro hc
          rcases List.mem_cons.mp hc with h' | h'
          · exact hx h'.symm
          · exact ih s (by rw [hr]; exact List.mem_cons_self s ss) h'
        · exact ih m (by rw [hr]; exact List.mem_cons_of_mem s h)

theorem splitOnChar_of_not_mem {c : Char} : ∀ {l : List Char}, c ∉ l →
    splitOnChar c l = [l]
  | [], _ => by simp [splitOnChar]
  | x :: xs, h => by
    have hx : ¬ x = c := by
      intro e
      exact h (by simp [e])
    have ih : splitOnChar c xs = [xs] :=
      splitOnChar_of_not_mem (fun hc => h (List.mem_cons_of_mem _ hc))
    simp only [splitOnChar, ih]
    rw [if_neg hx]
    rfl

theorem splitOnChar_append {c : Char} : ∀ {xs : List Char}, c ∉ xs → ∀ ys,
    splitOnChar c (xs ++ c :: ys) = xs :: splitOnChar c ys
  | [], _, ys => by
    rw [List.nil_append]
    exact splitOnChar_cons_self c ys
  | a :: as, h, ys => by
    have ha : ¬ a = c := by
      intro e
      exact h (by simp [e])
    have ih : splitOnChar c (as ++ c :: ys) = as :: splitOnChar c ys :=
      splitOnChar_append (fun hc => h (List.mem_cons_of_mem _ hc)) ys
    show splitOnChar c (a :: (as ++ c :: ys)) = (a :: as) :: splitOnChar c ys
    simp only [splitOnChar, ih]
    rw [if_neg ha]
    rfl

theorem splitOnChar_joinWithChar {c : Char} :
    ∀ ms : List (List Char), ms ≠ [] → (∀ m ∈ ms, c ∉ m) →
      splitOnChar c (joinWithChar c ms) = ms
  | [], h, _ => absurd rfl h
  | [m], _, hm => by
    simp [joinWithChar, splitOnChar_of_not_mem (hm m (by simp))]
  | m :: m' :: ms, _, hm => by
    simp only [joinWithChar]
    rw [splitOnChar_append (hm m (by simp)),
      splitOnChar_joinWithChar (m' :: ms) (by simp)
        (fun x hx => hm x (List.mem_cons_of_mem _ hx))]

theorem toList_mk (l : List Char) : (String.mk l).toList = l := rfl

theorem mk_toList (s : String) : String.mk s.toList = s := rfl

theorem splitSlash_ne_nil (s : String) : splitSlash s ≠ [] := by
  unfold splitSlash
  intro h
  exact splitOnChar_ne_nil '/' s.toList (List.map_eq_nil_iff.mp h)

theorem not_slash_of_mem_splitSlash {s : String} {x : String}
    (hx : x ∈ splitSlash s) : '/' ∉ x.toList := by
  unfold splitSlash at hx
  rcases List.mem_map.mp hx with ⟨m, hm, rfl⟩
  rw [toList_mk]
  exact not_mem_of_mem_splitOnChar '/' _ m hm

theorem toList_append (a b : String) : (a ++ b).toList = a.toList ++ b.toList :=
  String.data_append a b

theorem splitSlash_joinSlash {q : List String} (hq : q ≠ [])
    (h : ∀ x ∈ q, '/' ∉ x.toList) : splitSlash (joinSlash q) = q := by
  unfold splitSlash joinSlash
  rw [toList_mk, splitOnChar_joinWithChar (q.map String.toList)
    (by simpa using hq)
    (by
      intro m hm
      rcases List.mem_map.mp hm with ⟨x, hx, rfl⟩
      exact h x hx)]
  rw [List.map_map]
  have hid : String.mk ∘ String.toList = id := funext mk_toList
  rw [hid, List.map_id]

theorem splitSlash_slash_joinSlash {q : List String} (hq : q ≠ [])
    (h : ∀ x ∈ q, '/' ∉ x.toList) : splitSlash ("/" ++ joinSlash q) = "" :: q := by
  unfold splitSlash
  rw [toList_append]
  show List.map String.mk (splitOnChar '/' (['/'] ++ (joinSlash q).toList)) = "" :: q
  rw [List.singleton_append, splitOnChar_cons_self]
  have hrest : (splitOnChar '/' (joinSlash q).toList).map String.mk = q := by
    have hsj := splitSlash_joinSlash hq h
    unfold splitSlash at hsj
    exact hsj
  simp only [List.map_cons, hrest]

theorem cleanSegsAux_skip (rooted : Bool) (acc l : List String) {s : String}
    (h : s = "" ∨ s = ".") :
    cleanSegsAux rooted acc (s :: l) = cleanSegsAux rooted acc l := by
  simp only [cleanSegsAux]
  rw [if_pos h]

theorem cleanSegsAux_all_good (rooted : Bool) :
    ∀ l acc, (∀ x ∈ l, x ≠ "" ∧ x ≠ "." ∧ x ≠ "..") →
      cleanSegsAux rooted acc l = acc.reverse ++ l := by
  intro l
  induction l with
  | nil =>
    intro acc _
    simp [cleanSegsAux]
  | cons s rest ih =>
    intro acc hgood
    obtain ⟨h1, h2, h3⟩ := hgood s (by simp)
    simp only [cleanSegsAux]
    rw [if_neg (by simp [h1, h2]), if_neg h3,
      ih (s :: acc) (fun x hx => hgood x (by simp [hx]))]
    simp

theorem mem_cleanSegsAux (rooted : Bool) :
    ∀ l acc x, x ∈ cleanSegsAux rooted acc l →
      x ∈ acc ∨ x = ".." ∨ (x ∈ l ∧ x ≠ "" ∧ x ≠ "." ∧ x ≠ "..") := by
  intro l
  induction l with
  | nil =>
    intro acc x hx
    simp [cleanSegsAux] at hx
    exact Or.inl hx
  | cons s rest ih =>
    intro acc x hx
    simp only [cleanSegsAux] at hx
    by_cases h1 : s = "" ∨ s = "."
    · rw [if_pos h1] at hx
      rcases ih acc x hx with h | h | h
      · exact Or.inl h
      · exact Or.inr (Or.inl h)
      · exact Or.inr (Or.inr ⟨List.mem_cons_of_mem _ h.1, h.2⟩)
    · rw [if_neg h1] at hx
      by_cases h2 : s = ".."
      · rw [if_pos h2] at hx
        cases acc with
        | nil =>
          simp only [] at hx
          cases rooted with
          | true =>
            rw [if_pos rfl] at hx
            rcases ih [] x hx with h | h | h
            · simp at h
            · exact Or.inr (Or.inl h)
            · exact Or.inr (Or.inr ⟨List.mem_cons_of_mem _ h.1, h.2⟩)
          | false =>
            rw [if_neg (by simp)] at hx
            rcases ih [".."] x hx with h | h | h
            · simp at h
              exact Or.inr (Or.inl h)
            · exact Or.inr (Or.inl h)
            · exact Or.inr (Or.inr ⟨List.mem_cons_of_mem _ h.1, h.2⟩)
        | cons a as =>
          simp only [] at hx
          by_cases ha : a = ".."
          · rw [if_pos ha] at hx
            rcases ih (".." :: a :: as) x hx with h | h | h
            · rcases List.mem_cons.mp h with h' | h'
              · exact Or.inr (Or.inl h')
              · exact Or.inl h'
            · exact Or.inr (Or.inl h)
            · exact Or.inr (Or.inr ⟨List.mem_cons_of_mem _ h.1, h.2⟩)
          · rw [if_neg ha] at hx
            rcases ih as x hx with h | h | h
            · exact Or.inl (List.mem_cons_of_mem _ h)
            · exact Or.inr (Or.inl h)
            · exact Or.inr (Or.inr ⟨List.mem_cons_of_mem _ h.1, h.2⟩)
      · rw [if_neg h2] at hx
        rcases ih (s :: acc) x hx with h | h | h
        · rcases List.mem_cons.mp h with h' | h'
          · subst h'
            refine Or.inr (Or.inr ⟨by simp, ?_, ?_, h2⟩)
            · intro e
              exact h1 (Or.inl e)
            · intro e
              exact h1 (Or.inr e)
          · exact Or.inl h'
        · exact Or.inr (Or.inl h)
        · exact Or.inr (Or.inr ⟨List.mem_cons_of_mem _ h.1, h.2⟩)

theorem cleanSegsAux_rooted_ne_dotdot :
    ∀ l acc, (∀ a ∈ acc, a ≠ "..") → ∀ x ∈ cleanSegsAux true acc l, x ≠ ".." := by
  intro l
  induction l with
  | nil =>
    intro acc hacc x hx
    simp [cleanSegsAux] at hx
    exact hacc x hx
  | cons s rest ih =>
    intro acc hacc x hx
    simp only [cleanSegsAux] at hx
    by_cases h1 : s = "" ∨ s = "."
    · rw [if_pos h1] at hx
      exact ih acc hacc x hx
    · rw [if_neg h1] at hx
      by_cases h2 : s = ".."
      · rw [if_pos h2] at hx
        cases acc with
        | nil =>
          simp only [if_true] at hx
          exact ih [] (by simp) x hx
        | cons a as =>
          simp only [] at hx
          have ha : ¬ a = ".." := hacc a (by simp)
          rw [if_neg ha] at hx
          exact ih as (fun b hb => hacc b (List.mem_cons_of_mem _ hb)) x hx
      · rw [if_neg h2] at hx
        refine ih (s :: acc) ?_ x hx
        intro b hb
        rcases List.mem_cons.mp hb with h | h
        · subst h
          exact h2
        · exact hacc b h

theorem cleanSegsAux_split_slash_free {rooted : Bool} {s : String} {x : String}
    (hx : x ∈ cleanSegsAux rooted [] (splitSlash s)) : '/' ∉ x.toList := by
  rcases mem_cleanSegsAux rooted _ [] x hx with h | h | h
  · simp at h
  · subst h
    decide
  · exact not_slash_of_mem_splitSlash h.1

theorem cleanSegsAux_split_ne_empty {rooted : Bool} {s : String} {x : String}
    (hx : x ∈ cleanSegsAux rooted [] (splitSlash s)) : x ≠ "" := by
  rcases mem_cleanSegsAux rooted _ [] x hx with h | h | h
  · simp at h
  · subst h
    decide
  · exact h.2.1

theorem segments_of_rooted {p : Path} (hp : p.toList.head? = some '/') :
    (cleanSegsAux true [] (splitSlash p) = [] ∧ Segments p = [""]) ∨
    (cleanSegsAux true [] (splitSlash p) ≠ [] ∧
      Segments p = cleanSegsAux true [] (splitSlash p)) := by
  have hne : p ≠ "" := by
    intro e
    subst e
    simp at hp
  have hclean : clean p = "/" ++ joinSlash (cleanSegsAux true [] (splitSlash p)) := by
    unfold clean
    rw [if_neg hne, if_pos hp]
  rcases hq : cleanSegsAux true [] (splitSlash p) with _ | ⟨q, qs⟩
  · left
    refine ⟨rfl, ?_⟩
    unfold Segments
    rw [hclean, hq]
    rfl
  · right
    refine ⟨by simp, ?_⟩
    unfold Segments
    rw [hclean, hq, splitSlash_slash_joinSlash (by simp)
      (fun x hx => cleanSegsAux_split_slash_free (s := p) (hq ▸ hx))]
    rfl

theorem splitSlash_no_slash {s : String} (h : '/' ∉ s.toList) : splitSlash s = [s] := by
  unfold splitSlash
  rw [splitOnChar_of_not_mem h]
  simp [mk_toList]

theorem splitSlash_slash_cons {s : String} (h : '/' ∉ s.toList) :
    splitSlash ("/" ++ s) = ["", s] := by
  unfold splitSlash
  rw [toList_append]
  show List.map String.mk (splitOnChar '/' (['/'] ++ s.toList)) = ["", s]
  rw [List.singleton_append, splitOnChar_cons_self, splitOnChar_of_not_mem h]
  simp [mk_toList]

theorem splitSlash_selfns {s : String} (h : '/' ∉ s.toList) :
    splitSlash ("/dms3fs/" ++ s) = ["", "dms3fs", s] := by
  unfold splitSlash
  rw [toList_append]
  show List.map String.mk
    (splitOnChar '/' ('/' :: ("dms3fs".toList ++ '/' :: s.toList))) = ["", "dms3fs", s]
  rw [splitOnChar_cons_self, splitOnChar_append (by decide) s.toList,
    splitOnChar_of_not_mem h]
  simp [mk_toList]

theorem parseCidToPath_ok {M : CidModel} {txt : String} {q : Path}
    (h : ParseCidToPath M txt = .ok q) :
    ∃ c, M.decode txt = some c ∧ q = FromCid M c := by
  unfold ParseCidToPath at h
  by_cases h0 : txt = ""
  · rw [if_pos h0] at h
    exact Except.noConfusion h
  · rw [if_neg h0] at h
    rcases hd : M.decode txt with _ | c
    · rw [hd] at h
      exact Except.noConfusion h
    · rw [hd] at h
      injection h with h1
      exact ⟨c, rfl, h1.symm⟩

theorem parsePathGeneral_ok_shape {M : CidModel} {txt : String} {p : Path}
    (h : parsePathGeneral M txt = .ok p) :
    (∃ p1 p2 tl, splitSlash txt = "" :: p1 :: p2 :: tl ∧ p = txt) ∨
    (∃ p0 tl, splitSlash txt = p0 :: tl ∧ p0 ≠ "" ∧ p = "/dms3fs/" ++ txt) := by
  unfold parsePathGeneral at h
  rcases hs : splitSlash txt with _ | ⟨p0, tl⟩ <;> rw [hs] at h
  · exact Except.noConfusion h
  · simp only [] at h
    by_cases hp0 : p0 = ""
    · rw [if_pos hp0] at h
      subst hp0
      rcases tl with _ | ⟨p1, tl1⟩
      · exact Except.noConfusion h
      rcases tl1 with _ | ⟨p2, tl2⟩
      · exact Except.noConfusion h
      simp only [] at h
      by_cases h1 : p1 = "dms3fs"
      · rw [if_pos h1] at h
        rcases hk : ParseCidToPath M p2 with e | kp <;> rw [hk] at h
        · exact Except.noConfusion h
        · injection h with h2
          exact Or.inl ⟨p1, p2, tl2, rfl, h2.symm⟩
      · rw [if_neg h1] at h
        by_cases h2 : p1 = "dms3ns" ∨ p1 = "dms3ld"
        · rw [if_pos h2] at h
          injection h with h3
          exact Or.inl ⟨p1, p2, tl2, rfl, h3.symm⟩
        · rw [if_neg h2] at h
          exact Except.noConfusion h
    · rw [if_neg hp0] at h
      rcases hd : M.decode p0 with _ | c <;> rw [hd] at h
      · exact Except.noConfusion h
      · injection h with h1
        exact Or.inr ⟨p0, tl, rfl, hp0, h1.symm⟩

theorem head_of_splitOnChar_empty {c : Char} {l : List Char} {b : List Char}
    {bs : List (List Char)} (h : splitOnChar c l = [] :: b :: bs) :
    l.head? = some c := by
  cases l with
  | nil => simp [splitOnChar] at h
  | cons x xs =>
    by_cases hx : x = c
    · simp [hx]
    · simp only [splitOnChar] at h
      rw [if_neg hx] at h
      injection h with h1 h2
      exact List.noConfusion h1

theorem head_of_splitSlash_empty {txt : String} {a : String} {tl : List String}
    (h : splitSlash txt = "" :: a :: tl) : txt.toList.head? = some '/' := by
  have h' := h
  unfold splitSlash at h'
  rcases hs : splitOnChar '/' txt.toList with _ | ⟨m, ms⟩
  · exact absurd hs (splitOnChar_ne_nil _ _)
  · rw [hs] at h'
    injection h' with h1 h2
    have hm : m = [] := by
      have := congrArg String.toList h1
      simpa [toList_mk] using this
    cases ms with
    | nil => simp at h2
    | cons b bs =>
      exact head_of_splitOnChar_empty (hm ▸ hs)

theorem parsePath_ok_rooted {M : CidModel} {txt : String} {p : Path}
    (h : ParsePath M txt = .ok p) : p.toList.head? = some '/' := by
  unfold ParsePath at h
  have general : parsePathGeneral M txt = .ok p → p.toList.head? = some '/' := by
    intro hg
    rcases parsePathGeneral_ok_shape hg with ⟨p1, p2, tl, hs, rfl⟩ | ⟨p0, tl, _, _, rfl⟩
    · exact head_of_splitSlash_empty hs
    · rw [toList_append]
      rfl
  by_cases hlen : (splitSlash txt).length = 1
  · rw [if_pos hlen] at h
    rcases hk : ParseCidToPath M txt with e | kp <;> rw [hk] at h
    · exact general h
    · injection h with h1
      obtain ⟨c, _, hq⟩ := parseCidToPath_ok hk
      subst h1
      rw [hq]
      unfold FromCid
      rw [toList_append]
      rfl
  · rw [if_neg hlen] at h
    exact general h

/-- Claim C10: for every string, including the empty string and strings of
only slashes, `Segments` returns a non-empty sequence ( path cleaning never
produces an empty cleaned string ), which is what makes the unguarded
first-segment access of `SplitAbsPath` safe. -/
theorem claim10_segments_ne_nil (p : Path) : Segments p ≠ [] := by
  by_cases hne : p = ""
  · subst hne
    decide
  · by_cases hr : p.toList.head? = some '/'
    · rcases segments_of_rooted hr with ⟨_, h⟩ | ⟨h, h2⟩
      · rw [h]
        simp
      · rw [h2]
        exact h
    · unfold Segments clean
      rw [if_neg hne, if_neg hr]
      rcases hq : cleanSegsAux false [] (splitSlash p) with _ | ⟨q, qs⟩
      · simp only [hq]
        decide
      · simp only [hq]
        have hgood : ∀ x ∈ q :: qs, '/' ∉ x.toList := fun x hx =>
          cleanSegsAux_split_slash_free (s := p) (hq ▸ hx)
        rw [splitSlash_joinSlash (by simp) hgood]
        have hq0 : q ≠ "" :=
          cleanSegsAux_split_ne_empty (s := p) (hq ▸ List.mem_cons_self q qs)
        simp only [dropLeadingEmpty]
        rw [if_neg hq0]
        simp

/-- Claim C5 counterexample: the claim says the namespace tag with an empty
identifier fails with the grammar error, but `ParsePath` on that input
propagates the no-components error of decoding the empty identifier
instead; evaluated in a concrete decoder model. -/
theorem claim5_counterexample :
    ParsePath Mc "/dms3fs/" = .error PathError.errNoComponents ∧
    ParsePath Mc "/dms3fs/" ≠ .error PathError.errBadPath := by
  constructor
  · rfl
  · intro h
    rw [show ParsePath Mc "/dms3fs/" = .error PathError.errNoComponents from rfl] at h
    injection h with h1
    exact PathError.noConfusion h1

/-- Claim C5 ( amended ): all four rejected shapes fail to parse: the empty
string, a tag with no leading slash, and a leading slash directly followed
by a bare identifier fail with the grammar error, while the namespace tag
followed by an empty identifier fails with the no-components error coming
from the empty-identifier decode. -/
theorem claim5_grammar_rejection (M : CidModel) (id : String)
    (hdec : M.decode "dms3fs" = none) (hid : '/' ∉ id.toList) :
    ParsePath M "" = .error PathError.errBadPath ∧
    ParsePath M "/dms3fs/" = .error PathError.errNoComponents ∧
    ParsePath M "dms3fs/" = .error PathError.errBadPath ∧
    ParsePath M ("/" ++ id) = .error PathError.errBadPath := by
  refine ⟨rfl, rfl, ?_, ?_⟩
  · have hsplit : splitSlash "dms3fs/" = ["dms3fs", ""] := rfl
    unfold ParsePath
    rw [hsplit, if_neg (by decide)]
    unfold parsePathGeneral
    rw [hsplit]
    simp only []
    rw [if_neg (by decide), hdec]
  · have hsplit : splitSlash ("/" ++ id) = ["", id] := splitSlash_slash_cons hid
    unfold ParsePath
    rw [hsplit, if_neg (by simp)]
    unfold parsePathGeneral
    rw [hsplit]
    simp

/-- Claim C5 witness: the amended claim evaluated in the concrete
all-rejecting decoder model with the bare identifier `QmX`. -/
theorem claim5_witness :
    ParsePath Mc "" = .error PathError.errBadPath ∧
    ParsePath Mc "/dms3fs/" = .error PathError.errNoComponents ∧
    ParsePath Mc "dms3fs/" = .error PathError.errBadPath ∧
    ParsePath Mc ("/" ++ "QmX") = .error PathError.errBadPath :=
  claim5_grammar_rejection Mc "QmX" rfl (by decide)

/-- Claim C6: a bare valid content identifier parses, is grammar-equivalent
to the same identifier written in the explicit self-namespace form ( both
parse to the identical canonical path ), and the canonical path's segments
are the self tag followed by the identifier.  The identifier hypotheses
( non-empty, slash-free, not a dot segment, round-tripping through the
decoder ) spell out what a valid content identifier string is. -/
theorem claim6_bare_id_normalized (M : CidModel) (id : String) (c : M.Cid)
    (hdec : M.decode id = some c) (hround : M.cidToString c = id)
    (h0 : id ≠ "") (h1 : id ≠ ".") (h2 : id ≠ "..") (h3 : '/' ∉ id.toList) :
    ParsePath M id = .ok ("/dms3fs/" ++ id) ∧
    ParsePath M ("/dms3fs/" ++ id) = .ok ("/dms3fs/" ++ id) ∧
    Segments ("/dms3fs/" ++ id) = ["dms3fs", id] := by
  have hk : ParseCidToPath M id = .ok (FromCid M c) := by
    unfold ParseCidToPath
    rw [if_neg h0, hdec]
  have hsplit2 : splitSlash ("/dms3fs/" ++ id) = ["", "dms3fs", id] :=
    splitSlash_selfns h3
  refine ⟨?_, ?_, ?_⟩
  · have hsplit : splitSlash id = [id] := splitSlash_no_slash h3
    unfold ParsePath
    rw [hsplit, if_pos (show ([id] : List String).length = 1 from rfl), hk]
    simp only []
    unfold FromCid
    rw [hround]
  · unfold ParsePath
    rw [hsplit2, if_neg (by simp)]
    unfold parsePathGeneral
    rw [hsplit2]
    simp only []
    rw [hk]
    simp
  · have hroot : ("/dms3fs/" ++ id).toList.head? = some '/' := by
      rw [toList_append]
      rfl
    have hne : ("/dms3fs/" ++ id) ≠ "" := by
      intro h
      have h' := congrArg String.toList h
      rw [toList_append] at h'
      simp at h'
    unfold Segments clean
    rw [if_neg hne, if_pos hroot, hsplit2]
    have hgood : ∀ x ∈ ["dms3fs", id], x ≠ "" ∧ x ≠ "." ∧ x ≠ ".." := by
      intro x hx
      rcases List.mem_cons.mp hx with h | h
      · subst h
        refine ⟨by decide, by decide, by decide⟩
      · simp at h
        subst h
        exact ⟨h0, h1, h2⟩
    have hcl : cleanSegsAux true [] ["", "dms3fs", id] = ["dms3fs", id] := by
      rw [show (["", "dms3fs", id] : List String) = "" :: ["dms3fs", id] from rfl,
        cleanSegsAux_skip true [] _ (Or.inl rfl),
        cleanSegsAux_all_good true ["dms3fs", id] [] hgood]
      rfl
    rw [hcl, splitSlash_slash_joinSlash (by simp) (by
      intro x hx
      rcases List.mem_cons.mp hx with h | h
      · subst h
        decide
      · simp at h
        subst h
        exact h3)]
    rfl

/-- Claim C7 counterexample: `/dms3ns/x` parses successfully and is not
just-a-key, yet `PopLastSegment` fails with the grammar error, because the
popped prefix `/dms3ns` no longer satisfies the grammar; so the claim that
popping succeeds on every parsed non-key path is false. -/
theorem claim7_counterexample :
    ParsePath Mc "/dms3ns/x" = .ok "/dms3ns/x" ∧
    IsJustAKey "/dms3ns/x" = false ∧
    PopLastSegment Mc "/dms3ns/x" = .error PathError.errBadPath :=
  ⟨rfl, rfl, rfl⟩

/-- Claim C7 ( amended ): on a just-a-key path `PopLastSegment` returns the
path unchanged with an empty tail and no error, and on any other
successfully parsed path, whenever it succeeds with a head and a tail,
re-joining the head's segments with the tail reconstructs exactly the
original path's segments.  Success on every parsed non-key path is not
guaranteed ( see the counterexample ), so the left-inverse property is
stated conditionally on success. -/
theorem claim7_pop_rejoins (M : CidModel) (txt : String) (p : Path)
    (hparse : ParsePath M txt = .ok p) :
    (IsJustAKey p = true → PopLastSegment M p = .ok (p, "")) ∧
    (IsJustAKey p = false →
      ∀ head tail, PopLastSegment M p = .ok (head, tail) →
        Segments head ++ [tail] = Segments p) := by
  constructor
  · intro hj
    unfold PopLastSegment
    rw [if_pos hj]
  · intro hj head tail hpop
    simp only [PopLastSegment] at hpop
    rw [if_neg (by simp [hj])] at hpop
    have hroot : p.toList.head? = some '/' := parsePath_ok_rooted hparse
    rcases segments_of_rooted hroot with ⟨hq0, hseg⟩ | ⟨hq0, hseg⟩
    · rw [hseg] at hpop
      rw [show ParsePath M ("/" ++ joinSlash ([""] : List String).dropLast) =
        .error PathError.errBadPath from rfl] at hpop
      exact Except.noConfusion hpop
    · have hgood : ∀ x ∈ Segments p,
          x ≠ "" ∧ x ≠ "." ∧ x ≠ ".." ∧ '/' ∉ x.toList := by
        intro x hx
        have hx' := hseg ▸ hx
        rcases mem_cleanSegsAux true _ [] x hx' with h | h | h
        · simp at h
        · exact absurd h (cleanSegsAux_rooted_ne_dotdot _ [] (by simp) x hx')
        · exact ⟨h.2.1, h.2.2.1, h.2.2.2, not_slash_of_mem_splitSlash h.1⟩
      rcases hdrop : (Segments p).dropLast with _ | ⟨d, ds⟩ <;> rw [hdrop] at hpop
      · rw [show ParsePath M ("/" ++ joinSlash ([] : List String)) =
          .error PathError.errBadPath from rfl] at hpop
        exact Except.noConfusion hpop
      · have hsub : ∀ x ∈ d :: ds, x ∈ Segments p := fun x hx =>
          List.mem_of_mem_dropLast (hdrop ▸ hx)
        have hsplit' : splitSlash ("/" ++ joinSlash (d :: ds)) = "" :: d :: ds :=
          splitSlash_slash_joinSlash (by simp)
            (fun x hx => (hgood x (hsub x hx)).2.2.2)
        rcases hpar : ParsePath M ("/" ++ joinSlash (d :: ds)) with e | np <;>
          rw [hpar] at hpop
        · exact Except.noConfusion hpop
        · have hgen : parsePathGeneral M ("/" ++ joinSlash (d :: ds)) = .ok np := by
            unfold ParsePath at hpar
            rw [if_neg (by rw [hsplit']; simp)] at hpar
            exact hpar
          rcases parsePathGeneral_ok_shape hgen with
            ⟨q1, q2, qtl, _, rfl⟩ | ⟨q0, qtl, hs2, hq0ne, rfl⟩
          · injection hpop with h1
            injection h1 with hhead htail
            subst hhead
            subst htail
            have hne2 : ("/" ++ joinSlash (d :: ds)) ≠ "" := by
              intro h
              have h' := congrArg String.toList h
              rw [toList_append] at h'
              simp at h'
            have hroot2 : ("/" ++ joinSlash (d :: ds)).toList.head? = some '/' := by
              rw [toList_append]
              rfl
            have hclean2 :
                cleanSegsAux true [] (splitSlash ("/" ++ joinSlash (d :: ds))) =
                  d :: ds := by
              rw [hsplit', cleanSegsAux_skip true [] _ (Or.inl rfl),
                cleanSegsAux_all_good true (d :: ds) [] (fun x hx =>
                  ⟨(hgood x (hsub x hx)).1, (hgood x (hsub x hx)).2.1,
                    (hgood x (hsub x hx)).2.2.1⟩)]
              rfl
            have hsegs2 : Segments ("/" ++ joinSlash (d :: ds)) = d :: ds := by
              unfold Segments clean
              rw [if_neg hne2, if_pos hroot2, hclean2, hsplit']
              rfl
            rw [hsegs2]
            have hnep : Segments p ≠ [] := by
              rw [hseg]
              exact hq0
            rw [List.getLast?_eq_getLast_of_ne_nil hnep]
            simp only [Option.getD_some]
            rw [← hdrop]
            exact List.dropLast_append_getLast hnep
          · rw [hsplit'] at hs2
            injection hs2 with ha hb
            exact absurd ha.symm hq0ne

/-- Claim C7 witness: the amended claim evaluated on the parsed non-key path
`/dms3ld/QmA/b`, whose pop succeeds with head `/dms3ld/QmA` and tail `b`,
and whose segments are indeed reconstructed by the re-join. -/
theorem claim7_witness :
    Segments "/dms3ld/QmA" ++ ["b"] = Segments "/dms3ld/QmA/b" :=
  (claim7_pop_rejoins Mc "/dms3ld/QmA/b" "/dms3ld/QmA/b" rfl).2 rfl
    "/dms3ld/QmA" "b" rfl

/-- Claim C6 witness: the bare identifier `QmX` in the concrete model `Mq`,
where it decodes and round-trips. -/
theorem claim6_witness :
    ParsePath Mq "QmX" = .ok ("/dms3fs/" ++ "QmX") ∧
    ParsePath Mq ("/dms3fs/" ++ "QmX") = .ok ("/dms3fs/" ++ "QmX") ∧
    Segments ("/dms3fs/" ++ "QmX") = ["dms3fs", "QmX"] :=
  claim6_bare_id_normalized Mq "QmX" "QmX" rfl rfl (by decide) (by decide)
    (by decide) (by decide)

theorem hopChain_head {W : World} {r : Resolver W} {nd fin : W.Node}
    {names rem : List String} {ms : List W.Node}
    (h : HopChain r nd names ms fin rem) : ∃ t, ms = nd :: t := by
  cases h with
  | refl => exact ⟨[], rfl⟩
  | step h1 h2 h3 => exact ⟨_, rfl⟩

theorem hopChain_getLast {W : World} {r : Resolver W} {nd fin : W.Node}
    {names rem : List String} {ms : List W.Node}
    (h : HopChain r nd names ms fin rem) : ms.getLast? = some fin := by
  induction h with
  | refl => rfl
  | step h1 h2 h3 ih =>
    obtain ⟨t, rfl⟩ := hopChain_head h3
    rw [List.getLast?_cons_cons]
    exact ih

theorem resolveLinksGo_done {W : World} {r : Resolver W} {nd fin : W.Node}
    {names rem : List String} {ms : List W.Node}
    (h : HopChain r nd names ms fin rem) :
    rem = [] → ∀ fuel, names.length ≤ fuel → ∀ acc,
      resolveLinksGo r fuel acc nd names = (acc ++ ms.tail, none) := by
  induction h with
  | refl nd names =>
    intro hrem fuel _ acc
    subst hrem
    simp [resolveLinksGo]
  | step h1 h2 h3 ih =>
    intro hrem fuel hf acc
    cases fuel with
    | zero => simp at hf
    | succ f =>
      obtain ⟨t, rfl⟩ := hopChain_head h3
      simp only [resolveLinksGo]
      rw [h1]
      simp only []
      rw [h2]
      simp only []
      rw [ih hrem f (Nat.le_of_succ_le_succ hf) _]
      simp

theorem resolveLinksGo_noLink {W : World} {r : Resolver W} {m : String}
    {rest2 : List String} {nd fin : W.Node} {names : List String}
    {ms : List W.Node} {rem : List String}
    (h : HopChain r nd names ms fin rem) :
    rem = m :: rest2 →
    (r.resolveOnce r.dagGet fin (m :: rest2)).2.2 = some HopErr.linkNotFound →
    ∀ fuel, names.length ≤ fuel → ∀ acc,
      resolveLinksGo r fuel acc nd names =
        (acc ++ ms.tail, some (.noLink m (W.nodeCid fin))) := by
  induction h with
  | refl nd names =>
    intro hrem hmiss fuel hf acc
    subst hrem
    cases fuel with
    | zero => simp at hf
    | succ f =>
      simp only [resolveLinksGo]
      rcases hro : r.resolveOnce r.dagGet nd (m :: rest2) with ⟨lnk, rest, err⟩
      rw [hro] at hmiss
      simp at hmiss
      subst hmiss
      simp

  | step h1 h2 h3 ih =>
    intro hrem hmiss fuel hf acc
    cases fuel with
    | zero => simp at hf
    | succ f =>
      obtain ⟨t, rfl⟩ := hopChain_head h3
      simp only [resolveLinksGo]
      rw [h1]
      simp only []
      rw [h2]
      simp only []
      rw [ih hrem hmiss f (Nat.le_of_succ_le_succ hf) _]
      simp

theorem resolveLinksGo_extends {W : World} (r : Resolver W) :
    ∀ fuel (acc : List W.Node) (nd : W.Node) (names : List String),
      ∃ t, (resolveLinksGo r fuel acc nd names).1 = acc ++ t := by
  intro fuel
  induction fuel with
  | zero =>
    intro acc nd names
    cases names with
    | nil => exact ⟨[], by simp [resolveLinksGo]⟩
    | cons n rest0 => exact ⟨[], by simp [resolveLinksGo]⟩
  | succ f ih =>
    intro acc nd names
    cases names with
    | nil => exact ⟨[], by simp [resolveLinksGo]⟩
    | cons n rest0 =>
      rcases hro : r.resolveOnce r.dagGet nd (n :: rest0) with ⟨lnk, rest, err⟩
      simp only [resolveLinksGo]
      rw [hro]
      rcases err with _ | he
      · rcases lnk with _ | l
        · exact ⟨[], by simp⟩
        · simp only []
          rcases hg : W.getNode r.dagGet l with e | next
          · exact ⟨[], by simp⟩
          · obtain ⟨t, ht⟩ := ih (acc ++ [next]) next rest
            refine ⟨[next] ++ t, ?_⟩
            simp only []
            rw [ht]
            simp
      · rcases he with _ | e
        · exact ⟨[], by simp⟩
        · exact ⟨[], by simp⟩

/-- Claim C9: on every exit path of `ResolveLinks` — success, missing link,
other single-hop failure, fetch failure, or either modelling artifact —
the returned node sequence extends the initial singleton chain, so it is
never empty and its first element is exactly the root node passed in. -/
theorem claim9_result_head_is_root (W : World) (r : Resolver W)
    (nd : W.Node) (names : List String) :
    (r.ResolveLinks nd names).1 ≠ [] ∧
    (r.ResolveLinks nd names).1.head? = some nd := by
  obtain ⟨t, ht⟩ := resolveLinksGo_extends r names.length [nd] nd names
  unfold Resolver.ResolveLinks
  rw [ht]
  exact ⟨by simp, by simp⟩

/-- Claim C1: over a fully linked chain, the default resolver's
`ResolveLinks` succeeds and returns exactly the visited chain — non-empty,
starting at the root, each next element reached by the next link name —
and `ResolvePath` on the corresponding full path returns the chain's last
node. -/
theorem claim1_chain_resolution (W : World) (ds : W.Cid → Except W.Err W.Node)
    (root fin : W.Node) (names : List String) (ms : List W.Node)
    (fpath : Path) (c : W.Cid)
    (hchain : HopChain (NewBasicResolver W ds) root names ms fin [])
    (hvalid : IsValid W.toCidModel fpath = none)
    (hsplit : SplitAbsPath W.toCidModel fpath = .ok (c, names))
    (hds : ds c = .ok root) :
    (NewBasicResolver W ds).ResolveLinks root names = (ms, none) ∧
    ms ≠ [] ∧ ms.head? = some root ∧ ms.getLast? = some fin ∧
    (NewBasicResolver W ds).ResolvePath fpath = (some fin, none) := by
  obtain ⟨t, rfl⟩ := hopChain_head hchain
  have hrl : (NewBasicResolver W ds).ResolveLinks root names = (root :: t, none) := by
    unfold Resolver.ResolveLinks
    rw [resolveLinksGo_done hchain rfl names.length (le_refl _) [root]]
    simp
  refine ⟨hrl, by simp, by simp, hopChain_getLast hchain, ?_⟩
  unfold Resolver.ResolvePath
  rw [hvalid]
  simp only []
  unfold Resolver.ResolvePathComponents
  rw [hsplit]
  simp only []
  rw [show (NewBasicResolver W ds).dagGet = ds from rfl, hds]
  simp only []
  rw [hrl]
  simp only []
  rw [hopChain_getLast hchain]

/-- Claim C1 witness: the three-node chain of `W1` walked with names
`child`, `grandchild` from the path `/dms3fs/QmR/child/grandchild`. -/
theorem claim1_witness :
    r1.ResolveLinks 0 ["child", "grandchild"] = ([0, 1, 2], none) ∧
    ([0, 1, 2] : List W1.Node) ≠ [] ∧
    ([0, 1, 2] : List W1.Node).head? = some 0 ∧
    ([0, 1, 2] : List W1.Node).getLast? = some 2 ∧
    r1.ResolvePath "/dms3fs/QmR/child/grandchild" = (some 2, none) :=
  claim1_chain_resolution W1 ds1 0 2 ["child", "grandchild"] [0, 1, 2]
    "/dms3fs/QmR/child/grandchild" 0
    (HopChain.step rfl rfl (HopChain.step rfl rfl (HopChain.refl 2 [])))
    rfl rfl rfl

/-- Claim C2: when the single-hop resolver signals the link-not-found error
for the next name under the current cursor node, `ResolveLinks` stops and
fails with the no-link error carrying that missing name and the cursor
node's content id, returning the partial chain walked so far, which is
non-empty and starts at the root. -/
theorem claim2_missing_link (W : World) (r : Resolver W)
    (root fin : W.Node) (names : List String) (ms : List W.Node)
    (m : String) (rest2 : List String)
    (hchain : HopChain r root names ms fin (m :: rest2))
    (hmiss : (r.resolveOnce r.dagGet fin (m :: rest2)).2.2 =
      some HopErr.linkNotFound) :
    r.ResolveLinks root names = (ms, some (.noLink m (W.nodeCid fin))) ∧
    ms ≠ [] ∧ ms.head? = some root := by
  obtain ⟨t, rfl⟩ := hopChain_head hchain
  refine ⟨?_, by simp, by simp⟩
  unfold Resolver.ResolveLinks
  rw [resolveLinksGo_noLink hchain rfl hmiss names.length (le_refl _) [root]]
  simp

/-- Claim C2 witness: in `W1`, resolving `child` then `missing` from the
root fails at node 1 with the no-link error for `missing` and returns the
partial chain of the two visited nodes, matching the spec's own example. -/
theorem claim2_witness :
    r1.ResolveLinks 0 ["child", "missing"] =
      ([0, 1], some (.noLink "missing" 1)) ∧
    ([0, 1] : List W1.Node) ≠ [] ∧
    ([0, 1] : List W1.Node).head? = some 0 :=
  claim2_missing_link W1 r1 0 1 ["child", "missing"] [0, 1] "missing" []
    (HopChain.step rfl rfl (HopChain.refl 1 ["missing"])) rfl

/-- Claim C8: on a just-a-key path ( zero link segments after the root
identifier ), `ResolveToLastNode` returns the root identifier with an
empty remainder and no error, and the result is the same under every
possible fetch service — the node-fetch service is never invoked. -/
theorem claim8_just_a_key_no_fetch (W : World) (r : Resolver W)
    (fpath : Path) (c : W.Cid)
    (hsplit : SplitAbsPath W.toCidModel fpath = .ok (c, [])) :
    ∀ g : W.Cid → Except W.Err W.Node,
      Resolver.ResolveToLastNode { r with dagGet := g } fpath = .ok (c, []) := by
  intro g
  unfold Resolver.ResolveToLastNode
  rw [hsplit]
  rfl

/-- Claim C8 witness: the just-a-key path of `W1`, resolved with a fetch
service that fails on every identifier, still returns the root id. -/
theorem claim8_witness :
    Resolver.ResolveToLastNode { r1 with dagGet := fun _ => .error () }
      "/dms3fs/QmR" = .ok (0, []) :=
  claim8_just_a_key_no_fetch W1 r1 "/dms3fs/QmR" 0 rfl (fun _ => .error ())

/-- Claim C3: once the hop loop of `ResolveToLastNode` has stopped with
segments remaining, the cursor node's in-node resolution decides the
result: a non-link value with a fully consumed remainder returns the
cursor's content id paired with the remaining segment names; residual
unconsumed names fail with the resolve-fully error; a link value fails
with the internal-inconsistency error. -/
theorem claim3_fall_through (W : World) (r : Resolver W) (fpath : Path)
    (c : W.Cid) (p0 : List String) (nd0 nd : W.Node) (p : List String)
    (hsplit : SplitAbsPath W.toCidModel fpath = .ok (c, p0))
    (hp0 : p0 ≠ [])
    (hget : r.dagGet c = .ok nd0)
    (hloop : resolveToLastLoop r p0.length nd0 p0 = .ok (nd, p))
    (hp : p ≠ []) :
    (∀ v, W.nodeResolve nd p = .ok (NVal.other v, []) →
      r.ResolveToLastNode fpath = .ok (W.nodeCid nd, p)) ∧
    (∀ val q, W.nodeResolve nd p = .ok (val, q) → q ≠ [] →
      r.ResolveToLastNode fpath = .error .resolveFully) ∧
    (∀ l, W.nodeResolve nd p = .ok (NVal.link l, []) →
      r.ResolveToLastNode fpath = .error .inconsistent) := by
  have hbase : r.ResolveToLastNode fpath = lastNodeFallThru W nd p := by
    unfold Resolver.ResolveToLastNode
    rw [hsplit]
    simp only []
    rw [if_neg (by simpa using hp0), hget]
    simp only []
    rw [hloop]
    simp only []
    rw [if_neg (by simpa using hp)]
  refine ⟨?_, ?_, ?_⟩
  · intro v hres
    rw [hbase]
    unfold lastNodeFallThru
    rw [hres]
    simp
  · intro val q hres hq
    rw [hbase]
    unfold lastNodeFallThru
    rw [hres]
    simp only []
    rw [if_pos (List.length_pos.mpr hq)]
  · intro l hres
    rw [hbase]
    unfold lastNodeFallThru
    rw [hres]
    simp

/-- Claim C3 witness: in `W3` the loop breaks immediately at the root and
the in-node resolution consumes the remaining name to a non-link value, so
the root's content id is returned paired with that name. -/
theorem claim3_witness :
    r3.ResolveToLastNode "/dms3fs/QmR/a" = .ok (0, ["a"]) :=
  (claim3_fall_through W3 r3 "/dms3fs/QmR/a" 0 ["a"] 0 0 ["a"]
    rfl (by decide) rfl rfl (by decide)).1 () rfl

theorem resolveToLastLoop_break {W : World} {r : Resolver W} {nd : W.Node}
    {n : String} {rest0 lr : List String} {e : Option (HopErr W.Err)} (f : Nat)
    (hro : r.resolveOnce r.dagGet nd (n :: rest0) = (none, lr, e)) :
    resolveToLastLoop r (Nat.succ f) nd (n :: rest0) = .ok (nd, n :: rest0) := by
  simp only [resolveToLastLoop]
  rw [hro]

/-- Claim C4 counterexample: in `W4` the single-hop resolver returns no
link together with an error value distinct from the link-not-found signal,
yet `ResolveToLastNode` does not propagate that error: it breaks to the
in-node fall-through and succeeds. -/
theorem claim4_counterexample :
    r4.resolveOnce r4.dagGet 0 ["a"] = (none, [], some (HopErr.other 7)) ∧
    r4.ResolveToLastNode "/dms3fs/QmR/a" = .ok (0, ["a"]) ∧
    r4.ResolveToLastNode "/dms3fs/QmR/a" ≠
      .error (ResolveErr.exterr 7) := by
  refine ⟨rfl, rfl, ?_⟩
  intro h
  rw [show r4.ResolveToLastNode "/dms3fs/QmR/a" = .ok (0, ["a"]) from rfl] at h
  exact Except.noConfusion h

/-- Claim C4 ( amended ): in `ResolveToLastNode`'s hop loop the nil-link
check precedes the error check, so whenever the single-hop resolver
returns no link the loop breaks to the in-node fall-through regardless of
any accompanying error, which is dropped; the final result is then decided
by the in-node resolution of the remaining segments. -/
theorem claim4_nil_link_breaks (W : World) (r : Resolver W) (fpath : Path)
    (c : W.Cid) (p0 : List String) (nd0 : W.Node)
    (lr : List String) (e : Option (HopErr W.Err))
    (hsplit : SplitAbsPath W.toCidModel fpath = .ok (c, p0))
    (hp0 : p0 ≠ [])
    (hget : r.dagGet c = .ok nd0)
    (hro : r.resolveOnce r.dagGet nd0 p0 = (none, lr, e)) :
    resolveToLastLoop r p0.length nd0 p0 = .ok (nd0, p0) ∧
    r.ResolveToLastNode fpath = lastNodeFallThru W nd0 p0 := by
  rcases p0 with _ | ⟨n, rest0⟩
  · exact absurd rfl hp0
  · have hloop : resolveToLastLoop r (n :: rest0).length nd0 (n :: rest0) =
        .ok (nd0, n :: rest0) := by
      rw [List.length_cons]
      exact resolveToLastLoop_break rest0.length hro
    refine ⟨hloop, ?_⟩
    unfold Resolver.ResolveToLastNode
    rw [hsplit]
    simp only []
    rw [if_neg (by simp), hget]
    simp only []
    rw [hloop]
    simp only []
    rw [if_neg (by simp)]

/-- Claim C4 witness: the amended claim at the concrete input of `W4`,
where the hop errors with a non-link-not-found value and the walk still
falls through to in-node resolution. -/
theorem claim4_witness :
    resolveToLastLoop r4 (["a"] : List String).length 0 ["a"] = .ok (0, ["a"]) ∧
    r4.ResolveToLastNode "/dms3fs/QmR/a" = lastNodeFallThru W4 0 ["a"] :=
  claim4_nil_link_breaks W4 r4 "/dms3fs/QmR/a" 0 ["a"] 0 []
    (some (HopErr.other 7)) rfl (by decide) rfl rfl

end GoPathVerification
